import Mathlib

/-!
A shallow embedding of the PDFScramble repository (files `scrambler.py` and
`manual_scrambler.py`) together with proofs about the embedded operations.

Conventions of the embedding:
* Python `int` is modelled as `Int` (unbounded, as in Python); page counts and
  0-based document indices are `Nat`.
* Python `float("inf")` only ever appears as a sentinel compared against
  integers inside sort keys, so it is modelled by the dedicated type `ExtInt`
  with an `inf` element above every finite value.
* Python tuples used as sort keys compare lexicographically; this is modelled
  by the `lexStep` combinator.
* Python `sorted` / `list.sort` are stable sorts by a total preorder; they are
  modelled by `List.insertionSort`, which is also stable, and a stable sort by
  a total preorder is uniquely determined.
* Fallible operations (`raise ValueError`) are modelled with `Except String`.
* The regular expression `(\d+|S|\$)\W*\-\W*(\d+)\W*` of the classifier and
  the OCR pass (the latter without the `\$` alternative) is modelled by a
  bespoke backtracking matcher over ASCII character classes, with
  `re.findall`'s left-to-right non-overlapping scan.
-/

/-- Chapter designation held by a page: a numeric chapter or the supplement
marker `S` (Python stores `int | Literal['S']`). -/
inductive Chapter where
  | num (n : Int)
  | S
deriving DecidableEq, Repr

/-- The `Page` dataclass of `scrambler.py`: 0-based document index, a flag for
pages whose label could not be parsed, and the parsed chapter / chapter page
(both `0` for failed pages, as `Page(i, True, 0, 0)` does). -/
structure Page where
  index : Nat
  failed : Bool
  chapter : Chapter
  chapter_page : Int
deriving DecidableEq, Repr

/-! ### The move-list algorithm of `manual_scrambler.py` -/

/-- The normalization-and-validation loop of `ManualScrambler.rearrange`:
each `(orig_page, after_page)` entry is range-checked against the page count
(raising on the first violation), self-moves are skipped, and the surviving
moves are collected in input order. -/
def validateMoves (pageCount : Nat) : List (Int × Int) → Except String (List (Int × Int))
  | [] => .ok []
  | (k, v) :: rest =>
    if ¬(1 ≤ k ∧ k ≤ (pageCount : Int)) then
      .error "Invalid source page"
    else if ¬(1 ≤ v ∧ v ≤ (pageCount : Int)) then
      .error "Invalid target page"
    else if k = v then
      validateMoves pageCount rest
    else
      match validateMoves pageCount rest with
      | .ok ms => .ok ((k, v) :: ms)
      | .error e => .error e

/-- The comparison used by `moves.sort(key=lambda x: (x[1], x[0]))`:
lexicographic on (target page, source page). -/
def moveLe (a b : Int × Int) : Prop :=
  (if a.2 = b.2 then decide (a.1 ≤ b.1) else decide (a.2 < b.2)) = true

instance : DecidableRel moveLe := fun a b => by unfold moveLe; infer_instance

/-- Stable sort of the validated moves by ascending target page, tie-broken by
ascending source page (`moves.sort(key=lambda x: (x[1], x[0]))`). -/
def sortMoves (ms : List (Int × Int)) : List (Int × Int) :=
  ms.insertionSort moveLe

/-- Python's `list.insert(i, x)` for `0 ≤ i`: insert before index `i`,
appending when `i` is at least the length. -/
def insertAt (l : List Int) (n : Nat) (a : Int) : List Int :=
  l.take n ++ a :: l.drop n

/-- One iteration of the move loop of `ManualScrambler.rearrange`: remove the
source page by value (skipping the move if it is absent), locate the target
page by value in the post-removal order — falling back to the last position
when it is absent — and reinsert the source page immediately after it. -/
def applyMove (order : List Int) (m : Int × Int) : List Int :=
  if m.1 ∈ order then
    let removed := order.erase m.1
    let afterIdx : Nat :=
      if m.2 ∈ removed then removed.indexOf m.2 else removed.length - 1
    insertAt removed (afterIdx + 1) m.1
  else order

/-- The identity order `[1, 2, ..., page_count]` (1-based original page
numbers) that the move loop starts from. -/
def identityOrder (pageCount : Nat) : List Int :=
  (List.range pageCount).map (fun (i : Nat) => (i : Int) + 1)

/-- The order-computing core of `ManualScrambler.rearrange`: validate the raw
moves, sort them by (target, source), and fold the move loop over the identity
order. -/
def rearrange (pageCount : Nat) (raw : List (Int × Int)) : Except String (List Int) :=
  match validateMoves pageCount raw with
  | .error e => .error e
  | .ok ms => .ok ((sortMoves ms).foldl applyMove (identityOrder pageCount))

/-! ### The ordering key of `Scrambler._rearrange_page_list` -/

/-- An integer extended with the `float("inf")` sentinel used by the sort key
(the only role floats play in the program). -/
inductive ExtInt where
  | fin (n : Int)
  | inf
deriving DecidableEq, Repr

/-- Strict comparison on `ExtInt`, matching Python's `<` between integers and
`float("inf")`. -/
def ExtInt.ltB : ExtInt → ExtInt → Bool
  | .fin a, .fin b => a < b
  | .fin _, .inf => true
  | .inf, _ => false

/-- One lexicographic step of Python tuple comparison: if the heads differ the
strict head comparison decides, otherwise the comparison of the tails does. -/
def lexStep {α : Type} [DecidableEq α] (ltB : α → α → Bool) (x y : α) (rest : Bool) : Bool :=
  if x = y then rest else ltB x y

/-- The sort key of `Scrambler._rearrange_page_list.sort_key`:
`(1, inf, inf, index)` for failed pages and
`(0, chapter-or-inf, chapter_page, index)` otherwise. -/
def sortKey (p : Page) : Nat × ExtInt × ExtInt × Nat :=
  if p.failed then (1, .inf, .inf, p.index)
  else (0,
    (match p.chapter with
     | .num n => .fin n
     | .S => .inf),
    .fin p.chapter_page, p.index)

/-- Python's lexicographic `<=` on the 4-tuples produced by `sortKey`. -/
def keyLe (a b : Nat × ExtInt × ExtInt × Nat) : Bool :=
  lexStep (fun x y => decide (x < y)) a.1 b.1
    (lexStep ExtInt.ltB a.2.1 b.2.1
      (lexStep ExtInt.ltB a.2.2.1 b.2.2.1
        (decide (a.2.2.2 ≤ b.2.2.2))))

/-- The total preorder by which `sorted(self.init_pages, key=sort_key)`
orders pages. -/
def pageLe (p q : Page) : Prop :=
  keyLe (sortKey p) (sortKey q) = true

instance : DecidableRel pageLe := fun p q => by unfold pageLe; infer_instance

/-- The `Scrambler._rearrange_page_list` stage: a stable sort of the page list
by `sortKey`, producing a new list. -/
def rearrangePageList (pages : List Page) : List Page :=
  pages.insertionSort pageLe

/-! ### The label pattern `(\d+|S|\$)\W*\-\W*(\d+)\W*` and the classifier -/

/-- ASCII decimal digit, modelling `\d`. -/
def isDigitC (c : Char) : Bool := c.isDigit

/-- ASCII word character (letter, digit or underscore), modelling `\w`;
`\W` is its negation. -/
def isWordC (c : Char) : Bool := c.isAlphanum || c == '_'

/-- The part of the label pattern after the literal `-`: `\W*` then the
captured `\d+` then the trailing `\W*`. Digits are word characters, so the
greedy `\W*` has exactly one viable extent and no backtracking is needed here.
Returns the captured digits and the remainder after the whole match. -/
def afterDash (cs : List Char) : Option (List Char × List Char) :=
  let run2 := cs.takeWhile (fun c => !isWordC c)
  let rest3 := cs.drop run2.length
  let digs := rest3.takeWhile isDigitC
  if digs.isEmpty then none
  else
    let rest4 := rest3.drop digs.length
    let trail := rest4.takeWhile (fun c => !isWordC c)
    some (digs, rest4.drop trail.length)

/-- Backtracking over the extent `j` of the first `\W*`, longest first as a
greedy quantifier demands: consume `j` non-word characters, require a literal
`-` next, and hand the rest to `afterDash`; on failure retry with a shorter
extent. `rest1` is the text following the first capture group. -/
def tryDashAt (rest1 : List Char) : Nat → Option (List Char × List Char)
  | 0 =>
    if rest1.get? 0 = some '-' then afterDash (rest1.drop 1) else none
  | j + 1 =>
    match (if rest1.get? (j + 1) = some '-' then afterDash (rest1.drop (j + 2)) else none) with
    | some r => some r
    | none => tryDashAt rest1 j

/-- The first capture group `(\d+|S|\$)` at the current position (`dollar`
selects whether the `\$` alternative is present; the OCR pattern omits it).
A shorter-than-maximal `\d+` always leaves a digit (a word character) in
front of the `\W*\-`, which cannot match, so the greedy maximal extent is the
only viable one. -/
def matchG1 (dollar : Bool) : List Char → Option (List Char × List Char)
  | [] => none
  | c :: rest =>
    if isDigitC c then
      let digs := (c :: rest).takeWhile isDigitC
      some (digs, (c :: rest).drop digs.length)
    else if c = 'S' then some (['S'], rest)
    else if dollar && c = '$' then some (['$'], rest)
    else none

/-- Attempt to match the whole label pattern at the start of `cs`, returning
the two capture groups and the remainder of the text after the match. -/
def matchAt (dollar : Bool) (cs : List Char) : Option ((List Char × List Char) × List Char) :=
  match matchG1 dollar cs with
  | none => none
  | some (g1, rest1) =>
    let run := rest1.takeWhile (fun c => !isWordC c)
    match tryDashAt rest1 run.length with
    | none => none
    | some (g2, rest) => some ((g1, g2), rest)

/-- The scan loop of `re.findall`: try the pattern at each position from left
to right, resuming after the end of every (non-overlapping) match. Every
match consumes at least one character, so fuel equal to the text length is
never exhausted. -/
def findAllAux (dollar : Bool) : Nat → List Char → List (List Char × List Char)
  | 0, _ => []
  | _ + 1, [] => []
  | fuel + 1, c :: cs =>
    match matchAt dollar (c :: cs) with
    | some (g, rest) => g :: findAllAux dollar fuel rest
    | none => findAllAux dollar fuel cs

/-- Model of `page_num_pattern.findall(text)`: the list of captured pairs of
all non-overlapping matches, left to right. -/
def findAll (dollar : Bool) (s : String) : List (List Char × List Char) :=
  findAllAux dollar s.toList.length s.toList

/-- Python `int()` on the digit strings captured by the pattern. -/
def digitsToNat (cs : List Char) : Nat :=
  cs.foldl (fun a c => a * 10 + (c.toNat - 48)) 0

/-- The chapter stored for a capture `first`:
`"S" if first == "S" or first == "$" else int(first)`. -/
def chapterOfToken (cs : List Char) : Chapter :=
  if cs = ['S'] ∨ cs = ['$'] then .S else .num (digitsToNat cs)

/-- The body of the classification loop of `Scrambler._create_initial_page_list`
for one page with extracted text `t`: a failed page when the pattern finds
nothing, otherwise a classified page built from the last match. -/
def classifyPage (i : Nat) (t : String) : Page :=
  match h : findAll true t with
  | [] => ⟨i, true, .num 0, 0⟩
  | r :: rs =>
    let last := (r :: rs).getLast (by simp)
    ⟨i, false, chapterOfToken last.1, (digitsToNat last.2 : Int)⟩

/-- The loop of `Scrambler._create_initial_page_list` from document position
`i` on: a page whose extracted text is not a string (`none`) is skipped
entirely (`continue`), every other page contributes exactly one entry. -/
def initialPageListFrom (i : Nat) : List (Option String) → List Page
  | [] => []
  | none :: rest => initialPageListFrom (i + 1) rest
  | some t :: rest => classifyPage i t :: initialPageListFrom (i + 1) rest

/-- The `Scrambler._create_initial_page_list` stage, with the per-page result
of `page.get_text()` modelled as `Option String` (`none` for a non-string
result). -/
def createInitialPageList (texts : List (Option String)) : List Page :=
  initialPageListFrom 0 texts

/-- The chapter stored by the OCR pass: `"S" if first == "S" else int(first)`
(no `$` alternative). -/
def chapterOfTokenOcr (cs : List Char) : Chapter :=
  if cs = ['S'] then .S else .num (digitsToNat cs)

/-- The per-page body of `Scrambler._ocr_failed_pages`: only failed pages are
re-attempted, with the recognized text of the bottom strip supplied by the
oracle `ocr` (indexed by the page's document index); a match replaces the
entry in place, a non-match leaves it failed. -/
def ocrPage (ocr : Nat → String) (p : Page) : Page :=
  if p.failed then
    match h : findAll false (ocr p.index) with
    | [] => p
    | r :: rs =>
      let last := (r :: rs).getLast (by simp)
      ⟨p.index, false, chapterOfTokenOcr last.1, (digitsToNat last.2 : Int)⟩
  else p

/-- The `Scrambler._ocr_failed_pages` stage: a no-op when the OCR capability
is unavailable (`HAS_OCR` false), otherwise each failed page is re-attempted
independently in its own slot. -/
def ocrFailedPages (hasOCR : Bool) (ocr : Nat → String) (pages : List Page) : List Page :=
  if hasOCR then pages.map (ocrPage ocr) else pages

/-- One entry of `Scrambler._manual_page_adjustments`: find the first page
whose 0-based index equals `key - 1` and replace it by a classified page with
the supplied chapter data; when no page matches, the entry is silently
ignored. -/
def applyAdjustment (pages : List Page) (a : Int × Chapter × Int) : List Page :=
  match pages with
  | [] => []
  | p :: ps =>
    if (p.index : Int) = a.1 - 1 then ⟨p.index, false, a.2.1, a.2.2⟩ :: ps
    else p :: applyAdjustment ps a

/-- The `Scrambler._manual_page_adjustments` stage: apply the override entries
in input order. -/
def manualPageAdjustments (adjs : List (Int × Chapter × Int)) (pages : List Page) : List Page :=
  adjs.foldl applyAdjustment pages

/-- A chapter value that is a non-negative number or the supplement marker
(the shape both pattern-based stages produce). -/
def chapterNonneg : Chapter → Bool
  | .num n => 0 ≤ n
  | .S => true

/-- A three-page fixture: one classified page followed by two failed ones. -/
def pagesA : List Page :=
  [⟨0, false, .num 1, 1⟩, ⟨1, true, .num 0, 0⟩, ⟨2, true, .num 0, 0⟩]

/-- A two-page fixture: a supplement page and a numeric-chapter page with the
same chapter page number. -/
def pagesB : List Page :=
  [⟨0, false, .S, 1⟩, ⟨1, false, .num 999, 1⟩]

/-! ### Properties of the lexicographic comparison -/

theorem lexStep_refl {α : Type} [DecidableEq α] (ltB : α → α → Bool) (x : α) (r : Bool) :
    lexStep ltB x x r = r := by
  simp [lexStep]

theorem lexStep_trans {α : Type} [DecidableEq α] (ltB : α → α → Bool)
    (htrans : ∀ p q r, ltB p q = true → ltB q r = true → ltB p r = true)
    (hasymm : ∀ p q, ltB p q = true → ltB q p = true → False)
    (x y z : α) (r1 r2 r3 : Bool)
    (hr : x = y → y = z → r1 = true → r2 = true → r3 = true) :
    lexStep ltB x y r1 = true → lexStep ltB y z r2 = true → lexStep ltB x z r3 = true := by
  unfold lexStep
  by_cases hxy : x = y
  · subst hxy
    by_cases hyz : x = z
    · subst hyz
      simp only [if_pos rfl]
      exact fun h1 h2 => hr rfl rfl h1 h2
    · simp only [if_pos rfl, if_neg hyz]
      exact fun _ h => h
  · by_cases hyz : y = z
    · subst hyz
      simp only [if_neg hxy, if_pos rfl]
      exact fun h _ => h
    · simp only [if_neg hxy, if_neg hyz]
      intro h1 h2
      by_cases hxz : x = z
      · subst hxz
        exact absurd (hasymm _ _ h1 h2) id
      · simp only [if_neg hxz]
        exact htrans _ _ _ h1 h2

theorem lexStep_total {α : Type} [DecidableEq α] (ltB : α → α → Bool)
    (hconn : ∀ p q, p ≠ q → ltB p q = true ∨ ltB q p = true)
    (x y : α) (r1 r2 : Bool) (hr : r1 = true ∨ r2 = true) :
    lexStep ltB x y r1 = true ∨ lexStep ltB y x r2 = true := by
  unfold lexStep
  by_cases hxy : x = y
  · subst hxy
    simpa using hr
  · simp only [if_neg hxy, if_neg (Ne.symm hxy)]
    exact hconn _ _ hxy

theorem ExtInt.ltB_trans : ∀ a b c : ExtInt, ltB a b = true → ltB b c = true → ltB a c = true := by
  intro a b c
  cases a <;> cases b <;> cases c <;> simp [ltB]
  omega

theorem ExtInt.ltB_asymm : ∀ a b : ExtInt, ltB a b = true → ltB b a = true → False := by
  intro a b
  cases a <;> cases b <;> simp [ltB]
  omega

theorem ExtInt.ltB_conn : ∀ a b : ExtInt, a ≠ b → ltB a b = true ∨ ltB b a = true := by
  intro a b h
  cases a <;> cases b <;> simp_all [ltB]

theorem natLtB_trans : ∀ p q r : Nat, decide (p < q) = true → decide (q < r) = true →
    decide (p < r) = true := by
  intro p q r
  simp only [decide_eq_true_eq]
  omega

theorem natLtB_asymm : ∀ p q : Nat, decide (p < q) = true → decide (q < p) = true → False := by
  intro p q
  simp only [decide_eq_true_eq]
  omega

theorem natLtB_conn : ∀ p q : Nat, p ≠ q → decide (p < q) = true ∨ decide (q < p) = true := by
  intro p q h
  simp only [decide_eq_true_eq]
  omega

theorem keyLe_refl (a : Nat × ExtInt × ExtInt × Nat) : keyLe a a = true := by
  simp [keyLe, lexStep_refl]

theorem keyLe_trans (a b c : Nat × ExtInt × ExtInt × Nat) :
    keyLe a b = true → keyLe b c = true → keyLe a c = true := by
  unfold keyLe
  refine lexStep_trans _ natLtB_trans natLtB_asymm _ _ _ _ _ _ ?_
  intro _ _
  refine lexStep_trans _ ExtInt.ltB_trans ExtInt.ltB_asymm _ _ _ _ _ _ ?_
  intro _ _
  refine lexStep_trans _ ExtInt.ltB_trans ExtInt.ltB_asymm _ _ _ _ _ _ ?_
  intro _ _
  simp only [decide_eq_true_eq]
  omega

theorem keyLe_total (a b : Nat × ExtInt × ExtInt × Nat) :
    keyLe a b = true ∨ keyLe b a = true := by
  unfold keyLe
  refine lexStep_total _ natLtB_conn _ _ _ _ ?_
  refine (lexStep_total _ ExtInt.ltB_conn _ _ _ _ ?_)
  refine (lexStep_total _ ExtInt.ltB_conn _ _ _ _ ?_)
  simp only [decide_eq_true_eq]
  omega

instance : IsRefl Page pageLe := ⟨fun _ => keyLe_refl _⟩

instance : IsTrans Page pageLe := ⟨fun _ _ _ => keyLe_trans _ _ _⟩

instance : IsTotal Page pageLe := ⟨fun _ _ => keyLe_total _ _⟩

/-! ### Permutation facts about the move loop -/

theorem insertAt_perm (l : List Int) (n : Nat) (a : Int) : (insertAt l n a).Perm (a :: l) := by
  unfold insertAt
  have h1 : (l.take n ++ a :: l.drop n).Perm (a :: (l.take n ++ l.drop n)) := List.perm_middle
  rwa [List.take_append_drop] at h1

theorem applyMove_perm (order : List Int) (m : Int × Int) : (applyMove order m).Perm order := by
  unfold applyMove
  split
  · next h =>
    exact (insertAt_perm _ _ _).trans (List.perm_cons_erase h).symm
  · exact List.Perm.refl _

theorem foldl_applyMove_perm :
    ∀ (ms : List (Int × Int)) (order : List Int), (ms.foldl applyMove order).Perm order := by
  intro ms
  induction ms with
  | nil => intro order; exact List.Perm.refl _
  | cons m rest ih =>
    intro order
    exact (ih (applyMove order m)).trans (applyMove_perm order m)

/-- C1: running the move algorithm on the identity order of 30 pages with the
move set {20 → 5, 30 → 10} puts page 20 at 1-based position 6 and page 30 at
1-based position 12. -/
theorem rearrange_worked_example :
    (rearrange 30 [(20, 5), (30, 10)]).toOption.bind (fun L => L[5]?) = some 20 ∧
    (rearrange 30 [(20, 5), (30, 10)]).toOption.bind (fun L => L[11]?) = some 30 := by
  decide

/-! ### Facts about move validation and the identity order -/

theorem mem_identityOrder (N : Nat) (x : Int) :
    x ∈ identityOrder N ↔ 1 ≤ x ∧ x ≤ (N : Int) := by
  unfold identityOrder
  constructor
  · intro hx
    obtain ⟨i, hi, hix⟩ := List.mem_map.mp hx
    rw [List.mem_range] at hi
    omega
  · intro hx
    refine List.mem_map.mpr ⟨(x - 1).toNat, ?_, ?_⟩
    · rw [List.mem_range]
      omega
    · omega

theorem validateMoves_ok_mem (N : Nat) :
    ∀ (raw ms : List (Int × Int)), validateMoves N raw = .ok ms → ∀ m ∈ ms,
      1 ≤ m.1 ∧ m.1 ≤ (N : Int) ∧ 1 ≤ m.2 ∧ m.2 ≤ (N : Int) ∧ m.1 ≠ m.2 := by
  intro raw
  induction raw with
  | nil =>
    intro ms h m hm
    simp only [validateMoves] at h
    cases h
    simp at hm
  | cons kv rest ih =>
    intro ms h m hm
    obtain ⟨k, v⟩ := kv
    simp only [validateMoves] at h
    by_cases hc1 : 1 ≤ k ∧ k ≤ (N : Int)
    · rw [if_neg (not_not_intro hc1)] at h
      by_cases hc2 : 1 ≤ v ∧ v ≤ (N : Int)
      · rw [if_neg (not_not_intro hc2)] at h
        by_cases hkv : k = v
        · rw [if_pos hkv] at h
          exact ih ms h m hm
        · rw [if_neg hkv] at h
          cases hrec : validateMoves N rest with
          | ok ms' =>
            rw [hrec] at h
            cases h
            rcases List.mem_cons.mp hm with rfl | hm'
            · exact ⟨hc1.1, hc1.2, hc2.1, hc2.2, hkv⟩
            · exact ih _ hrec m hm'
          | error e =>
            rw [hrec] at h
            cases h
      · rw [if_pos hc2] at h
        cases h
    · rw [if_pos hc1] at h
      cases h

theorem validateMoves_error_of_bad (N : Nat) :
    ∀ (raw : List (Int × Int)) (m : Int × Int), m ∈ raw →
      (m.1 < 1 ∨ (N : Int) < m.1 ∨ m.2 < 1 ∨ (N : Int) < m.2) →
      ∃ e, validateMoves N raw = .error e := by
  intro raw
  induction raw with
  | nil =>
    intro m hm
    simp at hm
  | cons kv rest ih =>
    intro m hm hbad
    obtain ⟨k, v⟩ := kv
    simp only [validateMoves]
    by_cases hc1 : 1 ≤ k ∧ k ≤ (N : Int)
    · rw [if_neg (not_not_intro hc1)]
      by_cases hc2 : 1 ≤ v ∧ v ≤ (N : Int)
      · rw [if_neg (not_not_intro hc2)]
        rcases List.mem_cons.mp hm with rfl | hm'
        · exfalso
          simp only at hbad
          omega
        · by_cases hkv : k = v
          · rw [if_pos hkv]
            exact ih m hm' hbad
          · rw [if_neg hkv]
            obtain ⟨e, he⟩ := ih m hm' hbad
            rw [he]
            exact ⟨e, rfl⟩
      · rw [if_pos hc2]
        exact ⟨_, rfl⟩
    · rw [if_pos hc1]
      exact ⟨_, rfl⟩

/-! ### Filter-based frame facts about the move loop -/

theorem filter_erase_of_neg (pred : Int → Bool) :
    ∀ (l : List Int) (a : Int), pred a = false →
      (l.erase a).filter pred = l.filter pred := by
  intro l
  induction l with
  | nil => intro a _; rfl
  | cons b l ih =>
    intro a ha
    by_cases hba : b = a
    · subst hba
      rw [List.erase_cons_head]
      simp [List.filter_cons, ha]
    · rw [List.erase_cons_tail (by simpa using hba)]
      simp only [List.filter_cons]
      rw [ih a ha]

theorem filter_insertAt (pred : Int → Bool) (l : List Int) (n : Nat) (a : Int)
    (ha : pred a = false) : (insertAt l n a).filter pred = l.filter pred := by
  unfold insertAt
  rw [List.filter_append, List.filter_cons, ha]
  simp only [Bool.false_eq_true, if_false]
  rw [← List.filter_append, List.take_append_drop]

theorem filter_applyMove (pred : Int → Bool) (order : List Int) (m : Int × Int)
    (hm : pred m.1 = false) : (applyMove order m).filter pred = order.filter pred := by
  unfold applyMove
  split
  · rw [filter_insertAt _ _ _ _ hm, filter_erase_of_neg _ _ _ hm]
  · rfl

theorem filter_foldl_applyMove (pred : Int → Bool) :
    ∀ (ms : List (Int × Int)) (order : List Int), (∀ m ∈ ms, pred m.1 = false) →
      (ms.foldl applyMove order).filter pred = order.filter pred := by
  intro ms
  induction ms with
  | nil => intro order _; rfl
  | cons m rest ih =>
    intro order h
    rw [List.foldl_cons, ih _ (fun x hx => h x (List.mem_cons_of_mem _ hx)),
      filter_applyMove _ _ _ (h m (List.mem_cons_self _ _))]

/-! ### Structural facts about the classifier -/

theorem classifyPage_index (i : Nat) (t : String) : (classifyPage i t).index = i := by
  unfold classifyPage
  split <;> rfl

theorem classifyPage_failed (i : Nat) (t : String) :
    (classifyPage i t).failed = (findAll true t).isEmpty := by
  unfold classifyPage
  split <;> simp_all

theorem mem_initialPageListFrom_ge :
    ∀ (ts : List (Option String)) (s : Nat) (p : Page),
      p ∈ initialPageListFrom s ts → s ≤ p.index := by
  intro ts
  induction ts with
  | nil =>
    intro s p hp
    simp [initialPageListFrom] at hp
  | cons o rest ih =>
    intro s p hp
    cases o with
    | none =>
      have h := ih (s + 1) p hp
      omega
    | some t =>
      rcases List.mem_cons.mp hp with rfl | hp'
      · rw [classifyPage_index]
      · have h := ih (s + 1) p hp'
        omega

theorem initialPageListFrom_filter :
    ∀ (ts : List (Option String)) (s k : Nat),
      (initialPageListFrom s ts).filter (fun p => p.index == s + k) =
        (match ts.get? k with
         | some (some t) => [classifyPage (s + k) t]
         | _ => []) := by
  intro ts
  induction ts with
  | nil =>
    intro s k
    rfl
  | cons o rest ih =>
    intro s k
    cases o with
    | none =>
      cases k with
      | zero =>
        show (initialPageListFrom (s + 1) rest).filter (fun p => p.index == s + 0) = []
        rw [List.filter_eq_nil_iff]
        intro p hp
        have := mem_initialPageListFrom_ge rest (s + 1) p hp
        simp only [beq_iff_eq]
        omega
      | succ k' =>
        show (initialPageListFrom (s + 1) rest).filter (fun p => p.index == s + (k' + 1)) = _
        have harith : s + (k' + 1) = (s + 1) + k' := by omega
        rw [harith]
        exact ih (s + 1) k'
    | some t =>
      cases k with
      | zero =>
        show ((classifyPage s t :: initialPageListFrom (s + 1) rest).filter
          (fun p => p.index == s + 0)) = [classifyPage (s + 0) t]
        rw [List.filter_cons]
        have hhead : (classifyPage s t).index == s + 0 := by
          rw [classifyPage_index]
          simp
        rw [if_pos (by simpa using hhead)]
        have htail : (initialPageListFrom (s + 1) rest).filter (fun p => p.index == s + 0) = [] := by
          rw [List.filter_eq_nil_iff]
          intro p hp
          have := mem_initialPageListFrom_ge rest (s + 1) p hp
          simp only [beq_iff_eq]
          omega
        rw [htail]
        simp
      | succ k' =>
        show ((classifyPage s t :: initialPageListFrom (s + 1) rest).filter
          (fun p => p.index == s + (k' + 1))) = _
        rw [List.filter_cons]
        have hhead : ((classifyPage s t).index == s + (k' + 1)) = false := by
          rw [classifyPage_index]
          simp only [beq_eq_false_iff_ne, ne_eq]
          omega
        rw [hhead]
        simp only [Bool.false_eq_true, if_false]
        have harith : s + (k' + 1) = (s + 1) + k' := by omega
        rw [harith]
        exact ih (s + 1) k'

theorem classifyPage_nonneg (i : Nat) (t : String) (h : (classifyPage i t).failed = false) :
    chapterNonneg (classifyPage i t).chapter = true ∧ 0 ≤ (classifyPage i t).chapter_page := by
  unfold classifyPage at *
  split at h
  · cases h
  · next r rs heq =>
    constructor
    · show chapterNonneg (chapterOfToken ((r :: rs).getLast (by simp)).1) = true
      unfold chapterOfToken
      split
      · rfl
      · simp [chapterNonneg]
    · show (0 : Int) ≤ (digitsToNat ((r :: rs).getLast (by simp)).2 : Int)
      exact Int.natCast_nonneg _

theorem mem_initialPageListFrom_nonneg :
    ∀ (ts : List (Option String)) (s : Nat) (p : Page), p ∈ initialPageListFrom s ts →
      p.failed = false → chapterNonneg p.chapter = true ∧ 0 ≤ p.chapter_page := by
  intro ts
  induction ts with
  | nil =>
    intro s p hp
    simp [initialPageListFrom] at hp
  | cons o rest ih =>
    intro s p hp hf
    cases o with
    | none => exact ih (s + 1) p hp hf
    | some t =>
      rcases List.mem_cons.mp hp with rfl | hp'
      · exact classifyPage_nonneg s t hf
      · exact ih (s + 1) p hp' hf

theorem ocrPage_shape (ocr : Nat → String) (p : Page) :
    ocrPage ocr p = p ∨
      ∃ (r : List Char × List Char) (rs : List (List Char × List Char)),
        ocrPage ocr p =
          ⟨p.index, false, chapterOfTokenOcr ((r :: rs).getLast (List.cons_ne_nil r rs)).1,
            (digitsToNat ((r :: rs).getLast (List.cons_ne_nil r rs)).2 : Int)⟩ := by
  unfold ocrPage
  split
  · split
    · exact Or.inl rfl
    · next r rs heq =>
      exact Or.inr ⟨r, rs, rfl⟩
  · exact Or.inl rfl

theorem chapterOfTokenOcr_nonneg (cs : List Char) : chapterNonneg (chapterOfTokenOcr cs) = true := by
  unfold chapterOfTokenOcr
  split
  · rfl
  · simp [chapterNonneg]

theorem ocrPage_nonneg (ocr : Nat → String) (p : Page)
    (hp : p.failed = false → chapterNonneg p.chapter = true ∧ 0 ≤ p.chapter_page)
    (hf : (ocrPage ocr p).failed = false) :
    chapterNonneg (ocrPage ocr p).chapter = true ∧ 0 ≤ (ocrPage ocr p).chapter_page := by
  rcases ocrPage_shape ocr p with heq | ⟨r, rs, heq⟩
  · rw [heq] at hf ⊢
    exact hp hf
  · rw [heq]
    exact ⟨chapterOfTokenOcr_nonneg _, Int.natCast_nonneg _⟩

/-! ### Claim theorems -/

/-- C2: for every page list (any N, any classification assignment) the output
of the ordering comparator is a permutation of its input, and for every move
set the order held by the move loop after each move prefix (hence also at the
end) is a permutation of the identity order — no page reference is duplicated
or missing at any point in either algorithm. -/
theorem permutation_invariant (pages : List Page) (N : Nat) (ms : List (Int × Int)) (k : Nat) :
    (rearrangePageList pages).Perm pages ∧
    (((sortMoves ms).take k).foldl applyMove (identityOrder N)).Perm (identityOrder N) :=
  ⟨List.perm_insertionSort _ _, foldl_applyMove_perm _ _⟩

/-- C9: applying the ordering comparator to its own output, classifications
unchanged, returns exactly the same order. -/
theorem rearrangePageList_idempotent (pages : List Page) :
    rearrangePageList (rearrangePageList pages) = rearrangePageList pages :=
  List.Sorted.insertionSort_eq (List.sorted_insertionSort pageLe pages)

/-- C10: page values that are not the source of any move spec appear in the
move loop's final output exactly as the subsequence they form in the identity
order — only moved pages change their relative position. -/
theorem untouched_pages_keep_order (N : Nat) (ms : List (Int × Int)) :
    ((sortMoves ms).foldl applyMove (identityOrder N)).filter
        (fun x => ms.all (fun m => m.1 != x)) =
      (identityOrder N).filter (fun x => ms.all (fun m => m.1 != x)) := by
  apply filter_foldl_applyMove
  intro m hm
  have hm' : m ∈ ms := (List.mem_insertionSort moveLe).mp hm
  by_contra hall
  rw [Bool.not_eq_false, List.all_eq_true] at hall
  have := hall m hm'
  simp at this

/-- C3 counterexample: when a move's anchor page is absent from the
post-removal order, the move loop does not signal any error — it silently
reinserts the source page at the end of the order. Here the anchor 5 is not
in `[1, 2, 3].erase 2 = [1, 3]`, yet the step succeeds and returns
`[1, 3, 2]` with the source page 2 appended last. -/
theorem applyMove_missing_anchor_appends :
    applyMove [1, 2, 3] (2, 5) = [1, 3, 2] ∧
    (5 : Int) ∉ ([1, 2, 3] : List Int).erase 2 := by
  decide

/-- C3 amended: the append-to-end fallback raises no error, but it can never
fire in a run of the move algorithm: for every validated move list, the
anchor page of the move processed at step `k` is present in the post-removal
order of that step. -/
theorem anchor_always_present (N : Nat) (raw ms : List (Int × Int)) (k : Nat) (m : Int × Int)
    (hval : validateMoves N raw = .ok ms) (hget : (sortMoves ms).get? k = some m) :
    m.2 ∈ (((sortMoves ms).take k).foldl applyMove (identityOrder N)).erase m.1 := by
  have hm : m ∈ sortMoves ms := List.get?_mem hget
  have hm' : m ∈ ms := (List.mem_insertionSort moveLe).mp hm
  obtain ⟨h1, h2, h3, h4, h5⟩ := validateMoves_ok_mem N raw ms hval m hm'
  have hperm := foldl_applyMove_perm ((sortMoves ms).take k) (identityOrder N)
  have hmem : m.2 ∈ identityOrder N := (mem_identityOrder N m.2).mpr ⟨h3, h4⟩
  have hmem' := hperm.mem_iff.mpr hmem
  exact (List.mem_erase_of_ne (Ne.symm h5)).mpr hmem'

/-- C3 witness: a concrete validated one-move run in which the theorem's
hypotheses hold and the anchor is indeed present after removal. -/
theorem anchor_always_present_witness :
    (1 : Int) ∈ (((sortMoves [(2, 1)]).take 0).foldl applyMove (identityOrder 3)).erase 2 :=
  anchor_always_present 3 [(2, 1)] [(2, 1)] 0 (2, 1) rfl rfl

/-- C4 counterexample: an out-of-range manual-override key (99 on a one-page
document) is not a fatal input error — `_manual_page_adjustments` silently
ignores it and returns the page list unchanged. -/
theorem manual_adjustment_out_of_range_ignored :
    manualPageAdjustments [(99, Chapter.S, 1)] [⟨0, true, Chapter.num 0, 0⟩] =
      [⟨0, true, Chapter.num 0, 0⟩] ∧
    ¬((99 : Int) ≤ 1) := by
  decide

/-- C4 amended: a move-spec page reference outside `[1, N]` makes the move
algorithm fail with an error before any order is produced (fail-fast), while
a manual-override entry whose key matches no page's index — in particular any
out-of-range key — is silently ignored, leaving every classification
unchanged (no error, but also no mutation). -/
theorem out_of_range_handling :
    (∀ (N : Nat) (raw : List (Int × Int)) (m : Int × Int), m ∈ raw →
      (m.1 < 1 ∨ (N : Int) < m.1 ∨ m.2 < 1 ∨ (N : Int) < m.2) →
      ∃ e, rearrange N raw = .error e) ∧
    (∀ (pages : List Page) (a : Int × Chapter × Int),
      (∀ p ∈ pages, (p.index : Int) ≠ a.1 - 1) → applyAdjustment pages a = pages) := by
  constructor
  · intro N raw m hm hbad
    obtain ⟨e, he⟩ := validateMoves_error_of_bad N raw m hm hbad
    refine ⟨e, ?_⟩
    unfold rearrange
    rw [he]
  · intro pages
    induction pages with
    | nil => intro a _; rfl
    | cons p ps ih =>
      intro a h
      unfold applyAdjustment
      rw [if_neg (h p (List.mem_cons_self _ _))]
      rw [ih a (fun q hq => h q (List.mem_cons_of_mem _ hq))]

/-- C4 witness: a concrete out-of-range move makes the move algorithm error,
and a concrete out-of-range override key leaves the page list unchanged. -/
theorem out_of_range_handling_witness :
    (∃ e, rearrange 2 [(5, 1)] = .error e) ∧
    applyAdjustment [⟨0, true, Chapter.num 0, 0⟩] (99, Chapter.S, 1) =
      [⟨0, true, Chapter.num 0, 0⟩] :=
  ⟨out_of_range_handling.1 2 [(5, 1)] (5, 1) (by decide) (by decide),
   out_of_range_handling.2 [⟨0, true, Chapter.num 0, 0⟩] (99, Chapter.S, 1) (by decide)⟩

/-- C5: in the comparator's output every Unclassified (failed) page sits after
every Classified page, and, provided the input's page indices are distinct (as
the classifier guarantees), the Unclassified pages appear among themselves in
ascending order of original index. -/
theorem unclassified_suffix (pages : List Page) (i j : Nat)
    (hnd : (pages.map Page.index).Nodup)
    (hi : i < (rearrangePageList pages).length)
    (hj : j < (rearrangePageList pages).length)
    (hij : i < j) :
    ((rearrangePageList pages)[i].failed = true → (rearrangePageList pages)[j].failed = true) ∧
    ((rearrangePageList pages)[i].failed = true → (rearrangePageList pages)[j].failed = true →
      (rearrangePageList pages)[i].index < (rearrangePageList pages)[j].index) := by
  have hs : (rearrangePageList pages).Sorted pageLe := List.sorted_insertionSort pageLe pages
  have hrel : pageLe ((rearrangePageList pages).get ⟨i, hi⟩) ((rearrangePageList pages).get ⟨j, hj⟩) :=
    hs.rel_get_of_lt (Fin.mk_lt_mk.mpr hij)
  rw [List.get_eq_getElem, List.get_eq_getElem] at hrel
  constructor
  · intro hfi
    by_contra hfj
    rw [Bool.not_eq_true] at hfj
    simp [pageLe, sortKey, hfi, hfj, keyLe, lexStep] at hrel
  · intro hfi hfj
    have hnd' : ((rearrangePageList pages).map Page.index).Nodup :=
      (((List.perm_insertionSort pageLe pages).map Page.index).nodup_iff).mpr hnd
    have hi' : i < ((rearrangePageList pages).map Page.index).length := by simpa using hi
    have hj' : j < ((rearrangePageList pages).map Page.index).length := by simpa using hj
    have hne : (rearrangePageList pages)[i].index ≠ (rearrangePageList pages)[j].index := by
      intro heq
      have heq' : ((rearrangePageList pages).map Page.index)[i] =
          ((rearrangePageList pages).map Page.index)[j] := by
        rw [List.getElem_map, List.getElem_map]
        exact heq
      have := (hnd'.getElem_inj_iff).mp heq'
      omega
    simp only [pageLe, sortKey, hfi, hfj, if_true, keyLe, lexStep] at hrel
    simp at hrel
    omega

/-- C5 witness: on a concrete three-page list the two failed pages land at the
tail positions in ascending index order. -/
theorem unclassified_suffix_witness :
    ((rearrangePageList pagesA).get ⟨2, by decide⟩).failed = true ∧
    ((rearrangePageList pagesA).get ⟨1, by decide⟩).index <
      ((rearrangePageList pagesA).get ⟨2, by decide⟩).index := by
  have h := unclassified_suffix pagesA 1 2 (by decide) (by decide) (by decide) (by decide)
  exact ⟨h.1 (by decide), h.2 (by decide) (by decide)⟩

/-- C6: among classified pages, a page with the Supplement marker never
precedes a page with a numeric chapter in the comparator's output, whatever
the chapter pages are: if position `i` holds a classified Supplement page and
position `j` a classified numeric-chapter page, then `j < i`. -/
theorem numeric_before_supplement (pages : List Page) (n : Int) (i j : Nat)
    (hi : i < (rearrangePageList pages).length)
    (hj : j < (rearrangePageList pages).length)
    (hfi : (rearrangePageList pages)[i].failed = false)
    (hfj : (rearrangePageList pages)[j].failed = false)
    (hci : (rearrangePageList pages)[i].chapter = Chapter.S)
    (hcj : (rearrangePageList pages)[j].chapter = Chapter.num n) :
    j < i := by
  by_contra hcon
  have hle : i ≤ j := Nat.le_of_not_lt hcon
  rcases Nat.eq_or_lt_of_le hle with heq | hlt
  · subst heq
    rw [hci] at hcj
    cases hcj
  · have hs : (rearrangePageList pages).Sorted pageLe := List.sorted_insertionSort pageLe pages
    have hrel : pageLe ((rearrangePageList pages).get ⟨i, hi⟩)
        ((rearrangePageList pages).get ⟨j, hj⟩) :=
      hs.rel_get_of_lt (Fin.mk_lt_mk.mpr hlt)
    rw [List.get_eq_getElem, List.get_eq_getElem] at hrel
    simp [pageLe, sortKey, hfi, hfj, hci, hcj, keyLe, lexStep, ExtInt.ltB] at hrel

/-- C6 witness: with a Supplement page and a chapter-999 page sharing chapter
page 1, the numeric page is sorted first. -/
theorem numeric_before_supplement_witness :
    ((rearrangePageList pagesB).get ⟨1, by decide⟩).chapter = Chapter.S ∧
    ((rearrangePageList pagesB).get ⟨0, by decide⟩).chapter = Chapter.num 999 ∧
    (0 : Nat) < 1 := by
  refine ⟨by decide, by decide, ?_⟩
  exact numeric_before_supplement pagesB 999 1 0 (by decide) (by decide) (by decide) (by decide)
    (by decide) (by decide)

/-- C7 counterexample: a page whose extracted text is not a string is omitted
from the classifier's output entirely instead of being recorded as
Unclassified — a one-page document with absent text yields an empty page
list, so that page has no entry at all. -/
theorem absent_text_page_omitted :
    createInitialPageList [Option.none] = [] := by
  decide

/-- C7 amended: every page whose extracted text is a string gets exactly one
entry — classified from the last pattern match, or failed exactly when the
pattern finds no match — while a page whose text is absent gets no entry at
all; no exception is raised in either case (the stage is total). -/
theorem classifier_entries (texts : List (Option String)) (i : Nat) :
    ((createInitialPageList texts).filter (fun p => p.index == i)) =
      (match texts.get? i with
       | some (some t) => [classifyPage i t]
       | _ => []) ∧
    ∀ t : String, (classifyPage i t).failed = (findAll true t).isEmpty := by
  constructor
  · have h := initialPageListFrom_filter texts 0 i
    simpa using h
  · intro t
    exact classifyPage_failed i t

/-- C8 counterexample: the page text `0-0` matches the label pattern and is
accepted, producing a Classified page whose chapter is the number 0 (neither
positive nor the Supplement marker) and whose chapter page is 0 (not
positive). -/
theorem classifier_zero_values :
    createInitialPageList [some "0-0"] = [⟨0, false, Chapter.num 0, 0⟩] ∧
    ¬(0 < (0 : Int)) := by
  constructor
  · rfl
  · decide

/-- C8 amended: after the text-extraction stage followed by the OCR stage
(with any OCR oracle, including the capability-missing no-op), every
classified page has a chapter that is a non-negative integer or the
Supplement marker, and a non-negative chapter page. Manual overrides are
excluded: they store whatever integers the correction file supplies. -/
theorem classified_fields_nonneg (texts : List (Option String)) (hasOCR : Bool)
    (ocr : Nat → String) (p : Page)
    (hp : p ∈ ocrFailedPages hasOCR ocr (createInitialPageList texts))
    (hf : p.failed = false) :
    chapterNonneg p.chapter = true ∧ 0 ≤ p.chapter_page := by
  unfold ocrFailedPages at hp
  by_cases hocr : hasOCR
  · rw [if_pos hocr] at hp
    obtain ⟨q, hq, rfl⟩ := List.mem_map.mp hp
    exact ocrPage_nonneg ocr q (mem_initialPageListFrom_nonneg texts 0 q hq) hf
  · rw [if_neg hocr] at hp
    exact mem_initialPageListFrom_nonneg texts 0 p hp hf

/-- C8 witness: the page text `3-4` classifies to chapter 3, chapter page 4,
which the amended claim accepts. -/
theorem classified_fields_nonneg_witness :
    chapterNonneg (⟨0, false, Chapter.num 3, (4 : Int)⟩ : Page).chapter = true ∧
    0 ≤ (⟨0, false, Chapter.num 3, (4 : Int)⟩ : Page).chapter_page :=
  classified_fields_nonneg [some "3-4"] false (fun _ => "") ⟨0, false, Chapter.num 3, 4⟩
    (by decide) (by decide)
